import Mathlib

/-!
Verification of `programs/convert_ncbi_refseq_genbank_chromosomes.py`.

The script remaps the accession identifier in column 0 of a GFF3 file
using a 10-column NCBI assembly-report conversion table.  Python strings
are modelled as lists of characters (`Str`), files as lists of lines,
and the Python `dict` as an insertion-ordered association list.  Every
definition below is translated from the source file; doc comments cite
the corresponding source lines.
-/

set_option maxHeartbeats 1000000

/-- Characters of one text line; a Python string is modelled as its list of
characters. -/
abbrev Str := List Char

/-- Python `row.split('\t')` (source line 32): splits at every tab character,
keeping empty pieces; the result is never the empty list. -/
def splitTab : Str → List Str
  | [] => [[]]
  | c :: cs =>
    let r := splitTab cs
    if c = '\t' then [] :: r
    else (c :: r.headD []) :: r.tail

/-- Python `'\t'.join(fields)` (source line 37). -/
def joinTab : List Str → Str
  | [] => []
  | [f] => f
  | f :: fs => f ++ '\t' :: joinTab fs

/-- Python `s.startswith(p)` (source lines 28 and 30): `p` is a prefix of
`s`. -/
def startsWith : Str → Str → Bool
  | [], _ => true
  | _ :: _, [] => false
  | p :: ps, c :: cs => p = c && startsWith ps cs

/-- The literal `'##gff'` tested on source line 28. -/
def gffTag : Str := String.toList "##gff"

/-- The literal `'#'` tested on source line 30. -/
def hashTag : Str := String.toList "#"

/-- Lookup in a Python `dict` modelled as an insertion-ordered association
list: `m[k]` when present, `none` otherwise (source lines 33 and 34 use
`row[0] in m` and `m[row[0]]`). -/
def dictGet? : List (Str × Str) → Str → Option Str
  | [], _ => none
  | (k0, v0) :: d, k => if k0 = k then some v0 else dictGet? d k

/-- Membership test `k in m` of a Python dict (source line 33). -/
def hasKey (d : List (Str × Str)) (k : Str) : Bool := (dictGet? d k).isSome

/-- Python dict insertion `m[k] = v`: overwrite the value in place when the
key is present, append a new entry otherwise.  Building a dict with
`dict(zip(keys, vals))` (source lines 23 and 25) performs this insertion
left to right starting from the empty dict. -/
def dictInsert : List (Str × Str) → Str → Str → List (Str × Str)
  | [], k, v => [(k, v)]
  | (k0, v0) :: d, k, v =>
    if k0 = k then (k, v) :: d else (k0, v0) :: dictInsert d k v

/-- Keys of the dict, in insertion order. -/
def dictKeys (d : List (Str × Str)) : List Str := d.map Prod.fst

/-- Python `row[i]` on a list of fields, total with default `[]`; the source
accesses `row[0]` of a split that is never empty (line 33), and the two
accession columns of 10-column table rows (lines 23 and 25). -/
def fieldD : List Str → Nat → Str
  | [], _ => []
  | f :: _, 0 => f
  | _ :: fs, n + 1 => fieldD fs n

/-- The 10 hard-coded column names assigned by `df.columns = header`
(source lines 6 and 7 and line 21). -/
def headerCols : List Str :=
  [String.toList "Sequence-Name", String.toList "Sequence-Role",
   String.toList "Assigned-Molecule", String.toList "Assigned-Molecule-Location/Type",
   String.toList "GenBank-Accn", String.toList "Relationship",
   String.toList "RefSeq-Accn", String.toList "Assembly-Unit",
   String.toList "Sequence-Length", String.toList "UCSC-style-name"]

/-- Position of a named column among the hard-coded names, modelling column
selection `df[name]` after the positional rename on source line 21. -/
def colIdx (name : Str) : Nat := headerCols.findIdx (fun h => h == name)

/-- Key column of the built lookup: `RefSeq-Accn` when the direction flag is
true (source line 23), `GenBank-Accn` when it is false (source line 25). -/
def keyColumn (r2g : Bool) : Nat :=
  if r2g then colIdx (String.toList "RefSeq-Accn")
  else colIdx (String.toList "GenBank-Accn")

/-- Value column of the built lookup, paired with `keyColumn` (source lines
23 and 25). -/
def valColumn (r2g : Bool) : Nat :=
  if r2g then colIdx (String.toList "GenBank-Accn")
  else colIdx (String.toList "RefSeq-Accn")

/-- Key field of one table row under the direction flag. -/
def rowKey (r2g : Bool) (r : List Str) : Str := fieldD r (keyColumn r2g)

/-- Value field of one table row under the direction flag. -/
def rowVal (r2g : Bool) (r : List Str) : Str := fieldD r (valColumn r2g)

/-- Pandas `comment='#'` handling (source line 20): the remainder of a line
from the first `#` character on is not parsed. -/
def stripComment : Str → Str
  | [] => []
  | c :: cs => if c = '#' then [] else c :: stripComment cs

/-- Rows produced by `pd.read_csv(path, sep='\t', comment='#')` on source
line 20 from the table lines: comment text is stripped, lines that are
empty afterwards are skipped, and each remaining line is split on tabs. -/
def csvRows (tbl : List Str) : List (List Str) :=
  ((tbl.map stripComment).filter (fun l => !l.isEmpty)).map splitTab

/-- Data rows of the conversion table: `pd.read_csv` consumes the first
surviving line as the column-name row, and `df.columns = header` (line 21)
then renames the columns positionally, so only the remaining rows become
data. -/
def dataRows (tbl : List Str) : List (List Str) := (csvRows tbl).tail

/-- One step of `dict(zip(df[key], df[val]))` (source lines 23 and 25). -/
def insStep (ki vi : Nat) (d : List (Str × Str)) (r : List Str) : List (Str × Str) :=
  dictInsert d (fieldD r ki) (fieldD r vi)

/-- The dict `dict(zip(df[key], df[val]))` built from the given rows
(source lines 23 and 25). -/
def buildRows (rows : List (List Str)) (ki vi : Nat) : List (Str × Str) :=
  rows.foldl (insStep ki vi) []

/-- The lookup `m` built by source lines 20 to 25 from the raw table lines
and the direction flag. -/
def buildMapping (r2g : Bool) (tbl : List Str) : List (Str × Str) :=
  buildRows (dataRows tbl) (keyColumn r2g) (valColumn r2g)

/-- One step of scanning for the last row whose key field equals `k`. -/
def lastStep (ki : Nat) (k : Str) (acc : Option (List Str)) (r : List Str) :
    Option (List Str) :=
  if fieldD r ki = k then some r else acc

/-- The last row among `rows` whose key field equals `k`, if any. -/
def lastRowWith (rows : List (List Str)) (ki : Nat) (k : Str) : Option (List Str) :=
  rows.foldl (lastStep ki k) none

/-- Source lines 33 to 35: replace field 0 by its image under the dict when
present, keep it otherwise.  The source never reaches this with an empty
field list because `split` is never empty. -/
def remapRow (m : List (Str × Str)) : List Str → List Str
  | [] => []
  | f0 :: rest =>
    match dictGet? m f0 with
    | some v => v :: rest
    | none => f0 :: rest

/-- Source line 36: the diagnostic `print('Row unparseable: ...')` fires
exactly when field 0 is not a key; the emitted diagnostic is modelled as the
split field list it displays. -/
def rowDiags (m : List (Str × Str)) : List Str → List (List Str)
  | [] => [[]]
  | f0 :: rest =>
    match dictGet? m f0 with
    | some _ => []
    | none => [f0 :: rest]

/-- Source lines 28 to 37, one loop iteration: the pair of chunks written to
the output file and of diagnostics printed.  A `##gff` line is written
verbatim and then, lacking a `continue`, falls through to the split,
remap and write statements; any other line starting with `#` is skipped by
`continue`; every other line is split, remapped and written. -/
def processLine (m : List (Str × Str)) (row : Str) : List Str × List (List Str) :=
  if startsWith gffTag row then
    ([row, joinTab (remapRow m (splitTab row))], rowDiags m (splitTab row))
  else if startsWith hashTag row then
    ([], [])
  else
    ([joinTab (remapRow m (splitTab row))], rowDiags m (splitTab row))

/-- Source lines 27 to 37: the whole pass over the input lines, collecting
the written chunks and the diagnostics in order. -/
def convert (m : List (Str × Str)) : List Str → List Str × List (List Str)
  | [] => ([], [])
  | row :: rows =>
    ((processLine m row).1 ++ (convert m rows).1,
     (processLine m row).2 ++ (convert m rows).2)

/-- Argparse `type=bool` parsing of `--refseq-to-genbank` (source line 15):
with no occurrence the default `True` applies; with a value `v` argparse
calls Python `bool(v)`, which for a string is true exactly when the string
is nonempty, so the string `False` parses as true. -/
def parseRefseqToGenbank : Option Str → Bool
  | none => true
  | some v => !v.isEmpty

/-- The full data transformation of the script, from the raw direction
argument, the table lines and the input lines to the written chunks and
diagnostics (source lines 19 to 37, with `args` bound to the parsed
arguments). -/
def runProgram (flag : Option Str) (tbl gffLines : List Str) :
    List Str × List (List Str) :=
  convert (buildMapping (parseRefseqToGenbank flag) tbl) gffLines

/-! ### Basic lemmas about splitting and joining -/

theorem splitTab_ne_nil (s : Str) : splitTab s ≠ [] := by
  cases s with
  | nil => simp [splitTab]
  | cons c cs => simp only [splitTab]; split <;> simp

theorem joinTab_cons_head (c : Char) (f : Str) (fs : List Str) :
    joinTab ((c :: f) :: fs) = c :: joinTab (f :: fs) := by
  cases fs <;> simp [joinTab]

theorem joinTab_splitTab (s : Str) : joinTab (splitTab s) = s := by
  induction s with
  | nil => simp [splitTab, joinTab]
  | cons c cs ih =>
    simp only [splitTab]
    by_cases h : c = '\t'
    · subst h
      simp only [if_pos rfl]
      obtain ⟨f, fs, hfs⟩ := List.exists_cons_of_ne_nil (splitTab_ne_nil cs)
      rw [hfs] at ih ⊢
      simp [joinTab, ih]
    · simp only [if_neg h]
      obtain ⟨f, fs, hfs⟩ := List.exists_cons_of_ne_nil (splitTab_ne_nil cs)
      rw [hfs] at ih ⊢
      simpa [joinTab_cons_head] using congrArg (c :: ·) ih

theorem splitTab_no_tab (s : Str) (h : '\t' ∉ s) : splitTab s = [s] := by
  induction s with
  | nil => simp [splitTab]
  | cons c cs ih =>
    simp only [List.mem_cons, not_or] at h
    have hc : ¬c = '\t' := fun hc => h.1 hc.symm
    simp [splitTab, hc, ih h.2]

theorem mem_splitTab_no_tab (s : Str) (f : Str) (hf : f ∈ splitTab s) : '\t' ∉ f := by
  induction s generalizing f with
  | nil => simp [splitTab] at hf; simp [hf]
  | cons c cs ih =>
    simp only [splitTab] at hf
    by_cases h : c = '\t'
    · rw [if_pos h] at hf
      rcases List.mem_cons.mp hf with h1 | h1
      · simp [h1]
      · exact ih f h1
    · rw [if_neg h] at hf
      obtain ⟨g, gs, hgs⟩ := List.exists_cons_of_ne_nil (splitTab_ne_nil cs)
      rw [hgs] at hf
      simp only [List.headD, List.tail] at hf
      rcases List.mem_cons.mp hf with h1 | h1
      · subst h1
        intro hmem
        rcases List.mem_cons.mp hmem with h2 | h2
        · exact h h2.symm
        · exact ih g (by simp [hgs]) h2
      · exact ih f (by simp [hgs, h1])

theorem mem_of_mem_splitTab (s : Str) (f : Str) (hf : f ∈ splitTab s) (c : Char)
    (hc : c ∈ f) : c ∈ s := by
  induction s generalizing f with
  | nil =>
    simp [splitTab] at hf
    subst hf
    simp at hc
  | cons a cs ih =>
    simp only [splitTab] at hf
    by_cases h : a = '\t'
    · rw [if_pos h] at hf
      rcases List.mem_cons.mp hf with h1 | h1
      · subst h1; simp at hc
      · exact List.mem_cons_of_mem a (ih f h1 hc)
    · rw [if_neg h] at hf
      obtain ⟨g, gs, hgs⟩ := List.exists_cons_of_ne_nil (splitTab_ne_nil cs)
      rw [hgs] at hf
      simp only [List.headD, List.tail] at hf
      rcases List.mem_cons.mp hf with h1 | h1
      · subst h1
        rcases List.mem_cons.mp hc with h2 | h2
        · simp [h2]
        · exact List.mem_cons_of_mem a (ih g (by simp [hgs]) h2)
      · exact List.mem_cons_of_mem a (ih f (by simp [hgs, h1]) hc)

theorem splitTab_append_tab (f t : Str) (h : '\t' ∉ f) :
    splitTab (f ++ '\t' :: t) = f :: splitTab t := by
  induction f with
  | nil => simp [splitTab]
  | cons c cs ih =>
    simp only [List.mem_cons, not_or] at h
    have hc : ¬c = '\t' := fun hc => h.1 hc.symm
    simp [splitTab, hc, ih h.2]

theorem splitTab_joinTab (fs : List Str) (hne : fs ≠ [])
    (hft : ∀ f ∈ fs, '\t' ∉ f) : splitTab (joinTab fs) = fs := by
  induction fs with
  | nil => exact absurd rfl hne
  | cons f gs ih =>
    cases gs with
    | nil => simpa [joinTab] using splitTab_no_tab f (hft f (by simp))
    | cons g gs' =>
      have h1 : '\t' ∉ f := hft f (by simp)
      have h2 : ∀ x ∈ g :: gs', '\t' ∉ x := fun x hx => hft x (by simp [hx])
      simp [joinTab, splitTab_append_tab f _ h1, ih (by simp) h2]

/-! ### Basic lemmas about prefixes, fields and the dict model -/

theorem startsWith_of_append (p q s : Str) (h : startsWith (p ++ q) s = true) :
    startsWith p s = true := by
  induction p generalizing s with
  | nil => simp [startsWith]
  | cons a ps ih =>
    cases s with
    | nil => simp [startsWith] at h
    | cons b cs =>
      simp only [List.cons_append, startsWith, Bool.and_eq_true] at h ⊢
      exact ⟨h.1, ih cs h.2⟩

theorem startsWith_hash_of_gff (s : Str) (h : startsWith gffTag s = true) :
    startsWith hashTag s = true := by
  have : hashTag ++ String.toList "#gff" = gffTag := by decide
  exact startsWith_of_append hashTag (String.toList "#gff") s (by rw [this]; exact h)

theorem fieldD_mem_or (r : List Str) (i : Nat) :
    fieldD r i ∈ r ∨ fieldD r i = [] := by
  induction r generalizing i with
  | nil => simp [fieldD]
  | cons f fs ih =>
    cases i with
    | zero => simp [fieldD]
    | succ n =>
      rcases ih n with h | h
      · exact Or.inl (List.mem_cons_of_mem f h)
      · simp [fieldD, h]

theorem dictGet?_insert (d : List (Str × Str)) (k0 v0 k : Str) :
    dictGet? (dictInsert d k0 v0) k =
      if k0 = k then some v0 else dictGet? d k := by
  induction d with
  | nil => simp [dictInsert, dictGet?]
  | cons e d ih =>
    obtain ⟨k1, v1⟩ := e
    by_cases h1 : k1 = k0
    · subst h1
      by_cases h2 : k1 = k
      · simp [dictInsert, dictGet?, h2]
      · simp [dictInsert, dictGet?, h2]
    · by_cases h2 : k1 = k
      · subst h2
        have : ¬k0 = k1 := fun h => h1 h.symm
        simp [dictInsert, dictGet?, h1, this]
      · simp [dictInsert, dictGet?, h1, h2, ih]

theorem mem_dictInsert (d : List (Str × Str)) (k v : Str) (e : Str × Str)
    (he : e ∈ dictInsert d k v) : e ∈ d ∨ e = (k, v) := by
  induction d with
  | nil => simp [dictInsert] at he; simp [he]
  | cons e0 d ih =>
    obtain ⟨k0, v0⟩ := e0
    simp only [dictInsert] at he
    by_cases h : k0 = k
    · rw [if_pos h] at he
      rcases List.mem_cons.mp he with h1 | h1
      · exact Or.inr h1
      · exact Or.inl (List.mem_cons_of_mem _ h1)
    · rw [if_neg h] at he
      rcases List.mem_cons.mp he with h1 | h1
      · exact Or.inl (by simp [h1])
      · rcases ih h1 with h2 | h2
        · exact Or.inl (List.mem_cons_of_mem _ h2)
        · exact Or.inr h2

theorem mem_dictKeys_insert (d : List (Str × Str)) (k v a : Str)
    (ha : a ∈ dictKeys (dictInsert d k v)) : a ∈ dictKeys d ∨ a = k := by
  simp only [dictKeys, List.mem_map] at ha
  obtain ⟨e, he, hea⟩ := ha
  rcases mem_dictInsert d k v e he with h | h
  · exact Or.inl (by simp only [dictKeys, List.mem_map]; exact ⟨e, h, hea⟩)
  · subst h; exact Or.inr hea.symm

theorem dictKeys_insert_nodup (d : List (Str × Str)) (k v : Str)
    (h : (dictKeys d).Nodup) : (dictKeys (dictInsert d k v)).Nodup := by
  induction d with
  | nil => simp [dictInsert, dictKeys]
  | cons e d ih =>
    obtain ⟨k0, v0⟩ := e
    simp only [dictKeys, List.map_cons, List.nodup_cons] at h
    by_cases hk : k0 = k
    · subst hk
      simpa [dictInsert, dictKeys, List.nodup_cons] using h
    · simp only [dictInsert, if_neg hk, dictKeys, List.map_cons, List.nodup_cons]
      refine ⟨fun hmem => ?_, ih h.2⟩
      rcases mem_dictKeys_insert d k v k0 hmem with h1 | h1
      · exact h.1 h1
      · exact hk h1

theorem dictGet?_mem (d : List (Str × Str)) (k v : Str)
    (h : dictGet? d k = some v) : (k, v) ∈ d := by
  induction d with
  | nil => simp [dictGet?] at h
  | cons e d ih =>
    obtain ⟨k0, v0⟩ := e
    simp only [dictGet?] at h
    by_cases hk : k0 = k
    · rw [if_pos hk] at h
      subst hk
      simp at h
      simp [h]
    · rw [if_neg hk] at h
      exact List.mem_cons_of_mem _ (ih h)

theorem dictGet?_eq_none (d : List (Str × Str)) (k : Str)
    (h : ∀ e ∈ d, e.1 ≠ k) : dictGet? d k = none := by
  induction d with
  | nil => rfl
  | cons e d ih =>
    obtain ⟨k0, v0⟩ := e
    have hk : ¬k0 = k := h (k0, v0) (by simp)
    simp only [dictGet?, if_neg hk]
    exact ih fun e he => h e (List.mem_cons_of_mem _ he)

/-! ### Lemmas about building the lookup from the table rows -/

theorem buildRows_lookup_aux (rows : List (List Str)) (ki vi : Nat) (k : Str)
    (d : List (Str × Str)) (acc : Option (List Str))
    (hbase : dictGet? d k = acc.map (fun r => fieldD r vi)) :
    dictGet? (rows.foldl (insStep ki vi) d) k =
      (rows.foldl (lastStep ki k) acc).map (fun r => fieldD r vi) := by
  induction rows generalizing d acc with
  | nil => simpa using hbase
  | cons r rows ih =>
    simp only [List.foldl_cons]
    apply ih
    by_cases h : fieldD r ki = k
    · simp [insStep, lastStep, dictGet?_insert, h]
    · simp [insStep, lastStep, dictGet?_insert, h, hbase]

theorem buildRows_lookup (rows : List (List Str)) (ki vi : Nat) (k : Str) :
    dictGet? (buildRows rows ki vi) k =
      (lastRowWith rows ki k).map (fun r => fieldD r vi) := by
  exact buildRows_lookup_aux rows ki vi k [] none rfl

theorem lastRowWith_key_aux (rows : List (List Str)) (ki : Nat) (k : Str)
    (acc : Option (List Str)) (hacc : ∀ r, acc = some r → fieldD r ki = k)
    (r2 : List Str) (h : rows.foldl (lastStep ki k) acc = some r2) :
    fieldD r2 ki = k := by
  induction rows generalizing acc with
  | nil => exact hacc r2 h
  | cons r rows ih =>
    simp only [List.foldl_cons] at h
    apply ih _ _ h
    intro r' hr'
    simp only [lastStep] at hr'
    by_cases hk : fieldD r ki = k
    · rw [if_pos hk] at hr'
      cases hr'
      exact hk
    · rw [if_neg hk] at hr'
      exact hacc r' hr'

theorem lastRowWith_isSome_mono (rows : List (List Str)) (ki : Nat) (k : Str)
    (acc : Option (List Str)) (hacc : acc.isSome = true) :
    (rows.foldl (lastStep ki k) acc).isSome = true := by
  induction rows generalizing acc with
  | nil => simpa using hacc
  | cons r rows ih =>
    simp only [List.foldl_cons]
    apply ih
    simp only [lastStep]
    split <;> simp [hacc]

theorem lastRowWith_isSome (rows : List (List Str)) (ki : Nat) (r : List Str)
    (hr : r ∈ rows) : (lastRowWith rows ki (fieldD r ki)).isSome = true := by
  unfold lastRowWith
  induction rows with
  | nil => simp at hr
  | cons r0 rows ih =>
    rcases List.mem_cons.mp hr with h | h
    · subst h
      simp only [List.foldl_cons, lastStep, if_pos rfl]
      exact lastRowWith_isSome_mono rows ki (fieldD r ki) (some r) rfl
    · simp only [List.foldl_cons]
      by_cases hk : fieldD r0 ki = fieldD r ki
      · simp only [lastStep, if_pos hk]
        exact lastRowWith_isSome_mono rows ki (fieldD r ki) (some r0) rfl
      · simp only [lastStep, if_neg hk]
        exact ih h

theorem mem_buildRows (rows : List (List Str)) (ki vi : Nat) (e : Str × Str)
    (he : e ∈ buildRows rows ki vi) :
    ∃ r ∈ rows, e = (fieldD r ki, fieldD r vi) := by
  suffices h : ∀ d, e ∈ rows.foldl (insStep ki vi) d →
      e ∈ d ∨ ∃ r ∈ rows, e = (fieldD r ki, fieldD r vi) by
    rcases h [] he with h1 | h1
    · simp at h1
    · exact h1
  clear he
  induction rows with
  | nil => intro d hd; exact Or.inl (by simpa using hd)
  | cons r rows ih =>
    intro d hd
    simp only [List.foldl_cons] at hd
    rcases ih (insStep ki vi d r) hd with h1 | h1
    · rcases mem_dictInsert d _ _ e h1 with h2 | h2
      · exact Or.inl h2
      · exact Or.inr ⟨r, by simp, h2⟩
    · obtain ⟨r', hr', he'⟩ := h1
      exact Or.inr ⟨r', List.mem_cons_of_mem _ hr', he'⟩

theorem buildRows_keys_nodup (rows : List (List Str)) (ki vi : Nat) :
    (dictKeys (buildRows rows ki vi)).Nodup := by
  suffices h : ∀ d, (dictKeys d).Nodup →
      (dictKeys (rows.foldl (insStep ki vi) d)).Nodup by
    exact h [] (by simp [dictKeys])
  induction rows with
  | nil => intro d hd; simpa using hd
  | cons r rows ih =>
    intro d hd
    simp only [List.foldl_cons]
    exact ih _ (dictKeys_insert_nodup d _ _ hd)

/-! ### Provenance of table rows and of mapping entries -/

theorem stripComment_subset (l : Str) (c : Char) (hc : c ∈ stripComment l) :
    c ∈ l := by
  induction l with
  | nil => simp [stripComment] at hc
  | cons a l ih =>
    simp only [stripComment] at hc
    by_cases h : a = '#'
    · rw [if_pos h] at hc; simp at hc
    · rw [if_neg h] at hc
      rcases List.mem_cons.mp hc with h1 | h1
      · simp [h1]
      · exact List.mem_cons_of_mem a (ih h1)

theorem mem_csvRows (tbl : List Str) (r : List Str) (hr : r ∈ csvRows tbl) :
    ∃ l ∈ tbl, r = splitTab (stripComment l) := by
  simp only [csvRows, List.mem_map, List.mem_filter] at hr
  obtain ⟨s, ⟨hs1, _⟩, hs2⟩ := hr
  obtain ⟨l, hl, hls⟩ := hs1
  exact ⟨l, hl, by rw [← hs2, ← hls]⟩

theorem mem_of_mem_dataRows (tbl : List Str) (r : List Str)
    (hr : r ∈ dataRows tbl) : r ∈ csvRows tbl := by
  unfold dataRows at hr
  cases h : csvRows tbl with
  | nil => rw [h] at hr; simp at hr
  | cons a l => rw [h] at hr; exact h ▸ List.mem_cons_of_mem a hr

theorem mapping_value_no_tab (tbl : List Str) (r2g : Bool) (e : Str × Str)
    (he : e ∈ buildMapping r2g tbl) : '\t' ∉ e.2 := by
  obtain ⟨r, hr, he'⟩ := mem_buildRows _ _ _ e he
  have hr' := mem_of_mem_dataRows tbl r hr
  obtain ⟨l, _, hl⟩ := mem_csvRows tbl r hr'
  subst hl
  rcases fieldD_mem_or (splitTab (stripComment l)) (valColumn r2g) with h | h
  · have := mem_splitTab_no_tab (stripComment l) _ h
    simpa [he'] using this
  · simp [he', h]

theorem mapping_key_chars (tbl : List Str) (r2g : Bool) (e : Str × Str)
    (he : e ∈ buildMapping r2g tbl) (c : Char) (hc : c ∈ e.1) :
    ∃ l ∈ tbl, c ∈ l := by
  obtain ⟨r, hr, he'⟩ := mem_buildRows _ _ _ e he
  have hr' := mem_of_mem_dataRows tbl r hr
  obtain ⟨l, hl, hls⟩ := mem_csvRows tbl r hr'
  subst hls
  rcases fieldD_mem_or (splitTab (stripComment l)) (keyColumn r2g) with h | h
  · refine ⟨l, hl, ?_⟩
    have hcf : c ∈ fieldD (splitTab (stripComment l)) (keyColumn r2g) := by
      rw [he'] at hc; exact hc
    exact stripComment_subset l c (mem_of_mem_splitTab _ _ h c hcf)
  · rw [he'] at hc
    simp only at hc
    rw [h] at hc
    simp at hc

/-! ### Compositionality of the line loop -/

theorem convert_append (m : List (Str × Str)) (xs ys : List Str) :
    convert m (xs ++ ys) =
      ((convert m xs).1 ++ (convert m ys).1,
       (convert m xs).2 ++ (convert m ys).2) := by
  induction xs with
  | nil => simp [convert]
  | cons x xs ih => simp [convert, ih]

theorem processLine_noncomment (m : List (Str × Str)) (row : Str)
    (hc : startsWith hashTag row = false) :
    processLine m row =
      ([joinTab (remapRow m (splitTab row))], rowDiags m (splitTab row)) := by
  have hg : startsWith gffTag row = false := by
    cases h : startsWith gffTag row with
    | false => rfl
    | true => exact absurd (startsWith_hash_of_gff row h) (by simp [hc])
  simp [processLine, hg, hc]

/-! ### Concrete data used by witnesses and counterexamples

A small assembly-report conversion table with a column-name line, one
comment line, and two data rows that share the RefSeq accession `NC_1`
but carry distinct GenBank accessions `GB_1` and `GB_2`. -/

def wHdr : Str := String.toList
  "Sequence-Name\tSequence-Role\tAssigned-Molecule\tAssigned-Molecule-Location/Type\tGenBank-Accn\tRelationship\tRefSeq-Accn\tAssembly-Unit\tSequence-Length\tUCSC-style-name"

def wCmt : Str := String.toList "# NCBI assembly report"

def wRowA : Str := String.toList
  "1\tassembled-molecule\t1\tChromosome\tGB_1\t=\tNC_1\tPrimary Assembly\t100\tchr1"

def wRowB : Str := String.toList
  "1a\tassembled-molecule\t1\tChromosome\tGB_2\t=\tNC_1\tPrimary Assembly\t200\tchr1a"

def wTbl : List Str := [wHdr, wCmt, wRowA, wRowB]

def wMap : List (Str × Str) := buildMapping true wTbl

/-! ### The claims -/

/-- C2: the claim states that every line starting with ##gff is copied
verbatim to the output exactly once with no other processing.  The code
violates it: the ##gff branch has no continue, so the line falls through to
the split, remap and write statements; evaluated on a file holding only the
line ##gff-version 3, the program writes that line twice and also emits a
Row-unparseable diagnostic for it. -/
theorem C2_code_bug_eval :
    runProgram none [] [String.toList "##gff-version 3\n"] =
      ([String.toList "##gff-version 3\n", String.toList "##gff-version 3\n"],
       [[String.toList "##gff-version 3\n"]]) := by decide

/-- C3, counterexample: the claim states that looking up the key of any
data row returns that rows own paired value.  On the concrete table wTbl,
whose two data rows share the key NC_1, the first data row pairs NC_1 with
GB_1, yet the lookup returns GB_2 from the later row. -/
theorem C3_counterexample :
    splitTab wRowA ∈ dataRows wTbl ∧
    rowKey true (splitTab wRowA) ≠ [] ∧
    dictGet? (buildMapping true wTbl) (rowKey true (splitTab wRowA)) ≠
      some (rowVal true (splitTab wRowA)) := by decide

/-- C3, amended: for every data row of the conversion table whose key
column is non-empty, the built mapping contains that key, and looking it up
returns the paired value column of the last data row having that key. -/
theorem C3_amended_lookup (tbl : List Str) (r2g : Bool) (row : List Str)
    (hrow : row ∈ dataRows tbl) (_hk : rowKey r2g row ≠ []) :
    ∃ r2, lastRowWith (dataRows tbl) (keyColumn r2g) (rowKey r2g row) = some r2 ∧
      rowKey r2g r2 = rowKey r2g row ∧
      dictGet? (buildMapping r2g tbl) (rowKey r2g row) = some (rowVal r2g r2) := by
  have hs : (lastRowWith (dataRows tbl) (keyColumn r2g) (rowKey r2g row)).isSome = true := by
    simp only [rowKey]
    exact lastRowWith_isSome (dataRows tbl) (keyColumn r2g) row hrow
  obtain ⟨r2, hr2⟩ := Option.isSome_iff_exists.mp hs
  refine ⟨r2, hr2, ?_, ?_⟩
  · simp only [rowKey]
    exact lastRowWith_key_aux (dataRows tbl) (keyColumn r2g) (rowKey r2g row) none
      (by simp) r2 hr2
  · simp only [buildMapping, rowKey, rowVal]
    rw [buildRows_lookup]
    simp only [rowKey] at hr2
    rw [hr2]
    rfl

/-- Witness for the amended C3 at the concrete table wTbl and its first
data row. -/
theorem C3_amended_witness :
    ∃ r2, lastRowWith (dataRows wTbl) (keyColumn true) (rowKey true (splitTab wRowA)) =
        some r2 ∧
      rowKey true r2 = rowKey true (splitTab wRowA) ∧
      dictGet? (buildMapping true wTbl) (rowKey true (splitTab wRowA)) =
        some (rowVal true r2) :=
  C3_amended_lookup wTbl true (splitTab wRowA) (by decide) (by decide)

/-- C4: the claim states that giving the option as false on the command
line makes the lookup map GenBank keys to RefSeq values.  The code violates
it: argparse with type bool applies the Python truth test to the raw
string, so the value False parses as true and the direction is unchanged;
only an empty string value parses as false.  Evaluated on the table wTbl,
the mapping built after passing the string False still takes the RefSeq
key NC_1 to the GenBank value GB_2. -/
theorem C4_code_bug_eval :
    parseRefseqToGenbank (some (String.toList "False")) = true ∧
    parseRefseqToGenbank none = true ∧
    parseRefseqToGenbank (some []) = false ∧
    dictGet? (buildMapping (parseRefseqToGenbank (some (String.toList "False"))) wTbl)
      (String.toList "NC_1") = some (String.toList "GB_2") := by decide

/-- C5: for every input line not starting with a hash character, when
field 0 is not a key of the mapping the line is written to the output
unchanged and a diagnostic identifying the split row is emitted, and when
field 0 is a key it is replaced by the mapped value and the reassembled
tab-joined line is written with no diagnostic. -/
theorem C5_unmapped_passthrough (m : List (Str × Str)) (row : Str)
    (hc : startsWith hashTag row = false) :
    (dictGet? m ((splitTab row).headD []) = none →
      processLine m row = ([row], [splitTab row])) ∧
    (∀ v, dictGet? m ((splitTab row).headD []) = some v →
      processLine m row = ([joinTab (v :: (splitTab row).tail)], [])) := by
  obtain ⟨f0, rest, hsp⟩ := List.exists_cons_of_ne_nil (splitTab_ne_nil row)
  rw [processLine_noncomment m row hc]
  constructor
  · intro hnone
    rw [hsp] at hnone ⊢
    simp only [List.headD] at hnone
    simp only [remapRow, rowDiags, hnone]
    rw [← hsp, joinTab_splitTab]
  · intro v hv
    rw [hsp] at hv ⊢
    simp only [List.headD] at hv
    simp only [remapRow, rowDiags, hv, List.tail]

/-- Witness for C5 at the mapping built from wTbl: an unmapped accession is
passed through with a diagnostic, a mapped accession is substituted with no
diagnostic. -/
theorem C5_witness :
    (processLine wMap (String.toList "NC_9\tregion\n") =
      ([String.toList "NC_9\tregion\n"], [splitTab (String.toList "NC_9\tregion\n")])) ∧
    (processLine wMap (String.toList "NC_1\tregion\n") =
      ([joinTab (String.toList "GB_2" ::
          (splitTab (String.toList "NC_1\tregion\n")).tail)], [])) :=
  ⟨(C5_unmapped_passthrough wMap (String.toList "NC_9\tregion\n") (by decide)).1
      (by decide),
   (C5_unmapped_passthrough wMap (String.toList "NC_1\tregion\n") (by decide)).2
      (String.toList "GB_2") (by decide)⟩

/-- C6: a line starting with a hash character but not with ##gff
contributes nothing to the output or the diagnostics: the whole pass over
any input containing it equals the pass over the input with that line
removed. -/
theorem C6_comment_dropped (m : List (Str × Str)) (pre post : List Str) (row : Str)
    (h1 : startsWith hashTag row = true) (h2 : startsWith gffTag row = false) :
    convert m (pre ++ row :: post) = convert m (pre ++ post) := by
  rw [convert_append, convert_append]
  have hrow : processLine m row = ([], []) := by
    simp [processLine, h1, h2]
  simp [convert, hrow]

/-- Witness for C6 on a concrete comment line. -/
theorem C6_witness :
    convert wMap ([String.toList "##gff-version 3\n"] ++
        String.toList "#!processor NCBI\n" :: [String.toList "NC_1\tregion\n"]) =
      convert wMap ([String.toList "##gff-version 3\n"] ++
        [String.toList "NC_1\tregion\n"]) :=
  C6_comment_dropped wMap [String.toList "##gff-version 3\n"]
    [String.toList "NC_1\tregion\n"] (String.toList "#!processor NCBI\n")
    (by decide) (by decide)

/-- C7: for every line not starting with a hash character, the single
chunk written for it has the same number of tab-separated fields as the
line, and the fields after field 0 are identical and in the same order;
the mapping is the one built from the conversion table, whose values never
contain a tab. -/
theorem C7_fields_preserved (tbl : List Str) (r2g : Bool) (row : Str)
    (hc : startsWith hashTag row = false) :
    ∃ out diags, processLine (buildMapping r2g tbl) row = ([out], diags) ∧
      (splitTab out).length = (splitTab row).length ∧
      (splitTab out).tail = (splitTab row).tail := by
  obtain ⟨f0, rest, hsp⟩ := List.exists_cons_of_ne_nil (splitTab_ne_nil row)
  rw [processLine_noncomment _ row hc]
  refine ⟨joinTab (remapRow (buildMapping r2g tbl) (splitTab row)), _, rfl, ?_⟩
  cases hget : dictGet? (buildMapping r2g tbl) f0 with
  | none =>
    rw [hsp]
    simp only [remapRow, hget]
    rw [← hsp, joinTab_splitTab]
    exact ⟨rfl, rfl⟩
  | some v =>
    rw [hsp]
    simp only [remapRow, hget]
    have hv : '\t' ∉ v :=
      mapping_value_no_tab tbl r2g (f0, v)
        (dictGet?_mem (buildMapping r2g tbl) f0 v hget)
    have hrest : ∀ f ∈ v :: rest, '\t' ∉ f := by
      intro f hf
      rcases List.mem_cons.mp hf with h | h
      · exact h ▸ hv
      · exact mem_splitTab_no_tab row f (by rw [hsp]; exact List.mem_cons_of_mem f0 h)
    rw [splitTab_joinTab (v :: rest) (by simp) hrest]
    exact ⟨rfl, rfl⟩

/-- Witness for C7 at the mapping built from wTbl and a three-field line
whose accession is remapped. -/
theorem C7_witness :
    ∃ out diags,
      processLine (buildMapping true wTbl) (String.toList "NC_1\tregion\t1\n") =
        ([out], diags) ∧
      (splitTab out).length = (splitTab (String.toList "NC_1\tregion\t1\n")).length ∧
      (splitTab out).tail = (splitTab (String.toList "NC_1\tregion\t1\n")).tail :=
  C7_fields_preserved wTbl true (String.toList "NC_1\tregion\t1\n") (by decide)

/-- C8: the keys of the built mapping are pairwise distinct, and for every
data row the lookup of its key returns the paired value of the last data
row carrying that key, so on duplicate keys the last occurrence wins. -/
theorem C8_duplicate_last_wins (tbl : List Str) (r2g : Bool) :
    (dictKeys (buildMapping r2g tbl)).Nodup ∧
    ∀ row ∈ dataRows tbl, ∀ r2,
      lastRowWith (dataRows tbl) (keyColumn r2g) (rowKey r2g row) = some r2 →
      dictGet? (buildMapping r2g tbl) (rowKey r2g row) = some (rowVal r2g r2) := by
  constructor
  · exact buildRows_keys_nodup (dataRows tbl) (keyColumn r2g) (valColumn r2g)
  · intro row _ r2 hr2
    simp only [buildMapping, rowKey, rowVal]
    rw [buildRows_lookup]
    simp only [rowKey] at hr2
    rw [hr2]
    rfl

/-- Witness for C8: on wTbl, whose two data rows both carry the key NC_1,
the lookup of the first rows key returns the value of the second row. -/
theorem C8_witness :
    dictGet? (buildMapping true wTbl) (rowKey true (splitTab wRowA)) =
      some (rowVal true (splitTab wRowB)) :=
  (C8_duplicate_last_wins wTbl true).2 (splitTab wRowA) (by decide)
    (splitTab wRowB) (by decide)

/-- C9: every entry of the built mapping originates from a data row, that
is, from a row strictly after the first surviving table line, which
pd.read_csv consumes as the column-name row; hence the accessions of that
first line never become a key or a value through it. -/
theorem C9_header_consumed (tbl : List Str) (r2g : Bool) :
    ∀ e ∈ buildMapping r2g tbl, ∃ row ∈ dataRows tbl,
      e.1 = rowKey r2g row ∧ e.2 = rowVal r2g row := by
  intro e he
  obtain ⟨r, hr, he'⟩ := mem_buildRows (dataRows tbl) (keyColumn r2g) (valColumn r2g) e he
  exact ⟨r, hr, by simp [he', rowKey], by simp [he', rowVal]⟩

/-- Witness for C9 at the only entry of the mapping built from wTbl. -/
theorem C9_witness :
    ∃ row ∈ dataRows wTbl,
      String.toList "NC_1" = rowKey true row ∧
      String.toList "GB_2" = rowVal true row :=
  C9_header_consumed wTbl true (String.toList "NC_1", String.toList "GB_2") (by decide)

/-- C10: a non-comment input line with no tab character is looked up as one
single field that still carries its trailing newline, while every key of
the mapping comes from a newline-free table line; so the line is never
remapped, is written out unchanged, and a diagnostic is emitted, even when
the text before the newline equals a mapping key. -/
theorem C10_newline_in_key (tbl : List Str) (r2g : Bool) (body : Str)
    (htbl : ∀ l ∈ tbl, '\n' ∉ l)
    (hc : startsWith hashTag (body ++ ['\n']) = false)
    (ht : '\t' ∉ body) :
    processLine (buildMapping r2g tbl) (body ++ ['\n']) =
      ([body ++ ['\n']], [[body ++ ['\n']]]) := by
  have hrowtab : '\t' ∉ body ++ ['\n'] := by
    intro h
    rcases List.mem_append.mp h with h | h
    · exact ht h
    · simp at h
  have hsp : splitTab (body ++ ['\n']) = [body ++ ['\n']] :=
    splitTab_no_tab (body ++ ['\n']) hrowtab
  have hnone : dictGet? (buildMapping r2g tbl) (body ++ ['\n']) = none := by
    apply dictGet?_eq_none
    intro e he hek
    have hnl : '\n' ∈ e.1 := by
      rw [hek]
      exact List.mem_append.mpr (Or.inr (by simp))
    obtain ⟨l, hl, hnl'⟩ := mapping_key_chars tbl r2g e he '\n' hnl
    exact htbl l hl hnl'
  rw [processLine_noncomment _ _ hc, hsp]
  simp only [remapRow, rowDiags, hnone]
  rfl

/-- Witness for C10: the line NC_1 followed by a newline is not remapped by
the mapping built from wTbl even though NC_1 itself is a key. -/
theorem C10_witness :
    processLine (buildMapping true wTbl) (String.toList "NC_1" ++ ['\n']) =
      ([String.toList "NC_1" ++ ['\n']], [[String.toList "NC_1" ++ ['\n']]]) :=
  C10_newline_in_key wTbl true (String.toList "NC_1") (by decide) (by decide) (by decide)
